import Mathlib

/-!
Shallow embedding of the core logic of the FIL live desktop dashboard
renderer (`src/renderer.js`): the bounded price sample buffer, windowed
percent change, cost-basis lot normalization, position metrics, alert
evaluation with cooldown, the price-message handlers of the source
chain, the on-chain balance refresher with its sticky cache, and the
atto-to-FIL unit conversion.  JavaScript numbers are modelled as exact
rationals extended with the special values NaN, Infinity and
-Infinity; times are integers (milliseconds, as produced by
`Date.now()`).
-/

/-- Model of a JavaScript number: an exact rational, or one of the
special values NaN, Infinity, -Infinity.  (IEEE-754 rounding and the
signed zero are not modelled; finite arithmetic is exact.) -/
inductive JSNum where
  | fin : ℚ → JSNum
  | nan : JSNum
  | inf : JSNum
  | ninf : JSNum
deriving DecidableEq

/-- Mirror of `Number.isFinite`. -/
def JSNum.isFinite : JSNum → Bool
  | .fin _ => true
  | _ => false

/-- Rational value of a finite `JSNum` (0 on the special values; the
embedding only reads it under an `isFinite` guard, like the source). -/
def JSNum.val : JSNum → ℚ
  | .fin q => q
  | _ => 0

/-- JavaScript subtraction extended to the special values. -/
def jsSub : JSNum → JSNum → JSNum
  | .nan, _ => .nan
  | _, .nan => .nan
  | .fin a, .fin b => .fin (a - b)
  | .inf, .fin _ => .inf
  | .ninf, .fin _ => .ninf
  | .fin _, .inf => .ninf
  | .fin _, .ninf => .inf
  | .inf, .inf => .nan
  | .inf, .ninf => .inf
  | .ninf, .inf => .ninf
  | .ninf, .ninf => .nan

/-- JavaScript multiplication extended to the special values. -/
def jsMul : JSNum → JSNum → JSNum
  | .nan, _ => .nan
  | _, .nan => .nan
  | .fin a, .fin b => .fin (a * b)
  | .inf, .fin b => if 0 < b then .inf else if b < 0 then .ninf else .nan
  | .fin a, .inf => if 0 < a then .inf else if a < 0 then .ninf else .nan
  | .ninf, .fin b => if 0 < b then .ninf else if b < 0 then .inf else .nan
  | .fin a, .ninf => if 0 < a then .ninf else if a < 0 then .inf else .nan
  | .inf, .inf => .inf
  | .inf, .ninf => .ninf
  | .ninf, .inf => .ninf
  | .ninf, .ninf => .inf

/-- JavaScript division extended to the special values (a finite
nonzero value divided by zero gives a signed infinity, 0/0 gives NaN;
the source's zero stands for +0). -/
def jsDiv : JSNum → JSNum → JSNum
  | .nan, _ => .nan
  | _, .nan => .nan
  | .fin a, .fin b =>
      if b = 0 then (if 0 < a then .inf else if a < 0 then .ninf else .nan)
      else .fin (a / b)
  | .inf, .fin b => if 0 ≤ b then .inf else .ninf
  | .ninf, .fin b => if 0 ≤ b then .ninf else .inf
  | .fin _, .inf => .fin 0
  | .fin _, .ninf => .fin 0
  | .inf, .inf => .nan
  | .inf, .ninf => .nan
  | .ninf, .inf => .nan
  | .ninf, .ninf => .nan

/-- Value of a list of decimal digit characters read left to right. -/
def digitsToNat (l : List Char) : ℕ :=
  l.foldl (fun a c => 10 * a + (c.toNat - 48)) 0

/-- Body of the modelled JS `Number(string)` conversion: an unsigned
decimal literal `digits`, `digits.digits`, `digits.` or `.digits`;
anything else is NaN.  This is the fragment the renderer feeds it. -/
def parseDec (l : List Char) : JSNum :=
  let intDs := l.takeWhile Char.isDigit
  match l.dropWhile Char.isDigit with
  | [] => if intDs = [] then .nan else .fin ((digitsToNat intDs : ℚ))
  | c :: fracRest =>
      if c = '.' ∧ fracRest.all Char.isDigit = true ∧ ¬(intDs = [] ∧ fracRest = []) then
        .fin ((digitsToNat intDs : ℚ) + (digitsToNat fracRest : ℚ) / 10 ^ fracRest.length)
      else .nan

/-- Negation on the model of JS numbers. -/
def jsNeg : JSNum → JSNum
  | .fin q => .fin (-q)
  | .nan => .nan
  | .inf => .ninf
  | .ninf => .inf

/-- Modelled fragment of the JS `Number(string)` builtin: the empty
string is 0, an optional leading minus sign, then a plain decimal
literal; exponents, hex forms and whitespace trimming are not
modelled (the renderer never produces them). -/
def jsNumber (s : String) : JSNum :=
  match s.data with
  | [] => .fin 0
  | c :: r => if c = '-' then jsNeg (parseDec r) else parseDec (c :: r)

/-- One entry of the price buffer: the source pushes `\x7b t, p \x7d`
with `t = Date.now()` and `p` the extracted price. -/
structure Sample where
  t : ℤ
  p : JSNum
deriving DecidableEq

/-- Source constant `BUF_MAX_POINTS`. -/
def BUF_MAX_POINTS : ℕ := 600

/-- Source `pushPrice`, at an arbitrary capacity `maxPoints` (the
source fixes it to `BUF_MAX_POINTS`): push the new sample, then
`splice(0, length - maxPoints)` drops the excess from the front. -/
def pushPriceN (maxPoints : ℕ) (buf : List Sample) (t : ℤ) (p : JSNum) : List Sample :=
  let b := buf ++ [⟨t, p⟩]
  if maxPoints < b.length then b.drop (b.length - maxPoints) else b

/-- Source `pushPrice` at the configured capacity. -/
def pushPrice (buf : List Sample) (t : ℤ) (p : JSNum) : List Sample :=
  pushPriceN BUF_MAX_POINTS buf t p

/-- The `for … break` loop of `pctChangeSinceMs`: first sample with
timestamp at or after the cutoff. -/
def refLoop (cutoff : ℤ) : List Sample → Option Sample
  | [] => none
  | x :: xs => if cutoff ≤ x.t then some x else refLoop cutoff xs

/-- Source `pctChangeSinceMs`, with the buffer and the current time
passed explicitly (the source reads the module-level buffer and
`Date.now()`). -/
def pctChangeSinceMs (priceBuffer : List Sample) (now ms : ℤ) : JSNum :=
  match priceBuffer with
  | [] => .nan
  | x :: xs =>
      let cutoff := now - ms
      let ref := (refLoop cutoff (x :: xs)).getD x
      let last := (x :: xs).getLast (List.cons_ne_nil x xs)
      if ref.p.isFinite = false ∨ last.p.isFinite = false ∨ ref.p = .fin 0 then .nan
      else .fin ((last.p.val - ref.p.val) / ref.p.val * 100)

/-- One raw cost-basis entry from the configured `FIL_LOTS` array:
the `price` field as a number, the optional `qty` and `usd` fields,
and the optional `ts` date string. -/
structure RawLot where
  price : JSNum
  qty : Option JSNum
  usd : Option JSNum
  ts : Option String
deriving DecidableEq

/-- One normalized lot as produced by `normalizeLots`. -/
structure Lot where
  qty : ℚ
  usd : ℚ
  price : ℚ
  ts : Option String
deriving DecidableEq

/-- JavaScript `l.ts || null`: the empty string is falsy. -/
def tsOrNull : Option String → Option String
  | some s => if s = "" then none else some s
  | none => none

/-- Body of the `normalizeLots` loop for one entry; `none` models the
`continue` branches. -/
def normalizeLot (l : RawLot) : Option Lot :=
  if l.price.isFinite = false ∨ l.price.val ≤ 0 then none
  else
    match l.qty with
    | some q =>
        if q.isFinite = false ∨ q.val ≤ 0 then none
        else some ⟨q.val, q.val * l.price.val, l.price.val, tsOrNull l.ts⟩
    | none =>
        match l.usd with
        | some u =>
            if u.isFinite = false ∨ u.val ≤ 0 then none
            else some ⟨u.val / l.price.val, u.val, l.price.val, tsOrNull l.ts⟩
        | none => none

/-- Source `normalizeLots`. -/
def normalizeLots (lots : List RawLot) : List Lot :=
  lots.filterMap normalizeLot

/-- Source constant `FIL_LOTS`: one entry with `usd = 100`,
`price = 2.481420365016936`, `ts = '2025-09-09'` and no `qty`. -/
def FIL_LOTS : List RawLot :=
  [⟨.fin ((2481420365016936 : ℚ) / 10 ^ 15), none, some (.fin 100), some "2025-09-09"⟩]

/-- Result record of `computePosition`. -/
structure Position where
  lotsCount : ℕ
  qty : ℚ
  invested : ℚ
  avgCost : JSNum
deriving DecidableEq

/-- Source `computePosition`, with the configured lot list as an
explicit parameter (the source reads the constant `FIL_LOTS`): sums
the normalized lots, prefers a finite positive live quantity
override, and guards the average-cost division behind `qty > 0`. -/
def computePositionLots (lots0 : List RawLot) (overrideQtyMaybe : JSNum) : Position :=
  let lots := normalizeLots lots0
  let invested := (lots.map Lot.usd).sum
  let qtyLots := (lots.map Lot.qty).sum
  let qty :=
    if overrideQtyMaybe.isFinite = true ∧ 0 < overrideQtyMaybe.val then overrideQtyMaybe.val
    else qtyLots
  let avg : JSNum := if 0 < qty then .fin (invested / qty) else .nan
  ⟨lots.length, qty, invested, avg⟩

/-- Source `computePosition` at the configured lot list. -/
def computePosition (overrideQtyMaybe : JSNum) : Position :=
  computePositionLots FIL_LOTS overrideQtyMaybe

/-- Kind of alert emitted by `maybeAlert` (the source builds a
stop-loss or a take-profit message text). -/
inductive AlertKind where
  | stopLoss
  | takeProfit
deriving DecidableEq

/-- Alert configuration: the source constants `ENABLE_ALERTS`,
`SL_PRICE`, `TP_PRICE` (NaN disables a threshold) and
`ALERT_COOLDOWN_MIN`. -/
structure AlertCfg where
  enabled : Bool
  sl : JSNum
  tp : JSNum
  cooldownMin : ℤ
deriving DecidableEq

/-- The alert constants configured in the source file. -/
def srcAlertCfg : AlertCfg := ⟨true, .fin 2, .fin (7 / 2), 60⟩

/-- Source `maybeAlert`, with the clock and the mutable `lastAlertTs`
passed and returned explicitly; the first component is the emitted
event, if any. -/
def maybeAlert (cfg : AlertCfg) (price : ℚ) (now lastAlertTs : ℤ) :
    Option AlertKind × ℤ :=
  if cfg.enabled = false then (none, lastAlertTs)
  else
    let cooldownMs := cfg.cooldownMin * 60000
    let canAlert : Bool := decide (cooldownMs ≤ now - lastAlertTs)
    let needsSL : Bool := cfg.sl.isFinite && decide (price ≤ cfg.sl.val)
    let needsTP : Bool := cfg.tp.isFinite && decide (cfg.tp.val ≤ price)
    if (needsSL || needsTP) && canAlert then
      (some (if needsSL then .stopLoss else .takeProfit), now)
    else (none, lastAlertTs)

/-- The mutable price state touched by the price source chain:
`lastPrice` and `priceBuffer`. -/
structure PriceState where
  lastPrice : JSNum
  priceBuffer : List Sample
deriving DecidableEq

/-- Shape of a parsed Coinbase ticker message as far as the handler
inspects it: `type`, `product_id`, and the `price` field (a string,
or absent). -/
structure CoinbaseMsg where
  type : String
  product_id : String
  price : Option String
deriving DecidableEq

/-- JavaScript truthiness of an optional string field: present and
non-empty. -/
def truthyStr : Option String → Bool
  | some s => s != ""
  | none => false

/-- The `ws.onmessage` handler of `startCoinbaseWS`: on a ticker
message for FIL-USD with a truthy price field, convert the price
with `Number` and, when finite, store it and push it into the
buffer. -/
def coinbaseOnMessage (now : ℤ) (st : PriceState) (m : CoinbaseMsg) : PriceState :=
  if m.type = "ticker" ∧ m.product_id = "FIL-USD" ∧ truthyStr m.price = true then
    let px := jsNumber (m.price.getD "")
    if px.isFinite = true then ⟨px, pushPrice st.priceBuffer now px⟩ else st
  else st

/-- One round of the `startRESTPolling` `poll` closure, with the
three provider outcomes passed explicitly (`getJsonNum` yields NaN on
any provider failure, so each outcome is a `JSNum`); the source tries
Coinbase first (`PRICE_SOURCE = 'coinbase'`), then Kraken, then
CoinGecko, short-circuiting on the first finite value. -/
def restPollStep (now : ℤ) (st : PriceState) (r1 r2 r3 : JSNum) : PriceState :=
  let px1 := r1
  let px2 := if px1.isFinite = false then r2 else px1
  let px3 := if px2.isFinite = false then r3 else px2
  if px3.isFinite = true then ⟨px3, pushPrice st.priceBuffer now px3⟩ else st

/-- Source constant `USE_EXODUS_BALANCE`. -/
def USE_EXODUS_BALANCE : Bool := true

/-- Source constant `FIL_ADDRESSES`. -/
def FIL_ADDRESSES : List String :=
  ["f16xgionxc7iowpdlqjjmlx6omzutyqzrwl4k4lti"]

/-- Modelled JS `String.trim` restricted to the space character (the
configured addresses contain no other whitespace). -/
def jsTrim (s : String) : String :=
  ⟨((s.data.dropWhile (· = ' ')).reverse.dropWhile (· = ' ')).reverse⟩

/-- The `addrs` list of `fetchExodusQtyFIL`: trimmed and filtered by
truthiness (non-empty). -/
def exodusAddrs : List String :=
  (FIL_ADDRESSES.map jsTrim).filter (fun s => s != "")

/-- The `total` accumulated by the `fetchExodusQtyFIL` loop: each
address's lookup result is added only when finite, so the total is an
exact rational. -/
def exodusTotal (lookup : String → JSNum) : ℚ :=
  exodusAddrs.foldl
    (fun total a => if (lookup a).isFinite = true then total + (lookup a).val else total) 0

/-- Source `fetchExodusQtyFIL`, with the per-address balance lookup
passed as a function and the mutable `cachedQty` passed and returned
explicitly (first component: the returned quantity; second: the cache
after the call).  The source's `!Number.isFinite(total)` disjunct is
vacuous here because the accumulated total is an exact rational. -/
def fetchExodusQtyFIL (lookup : String → JSNum) (cachedQty : JSNum) : JSNum × JSNum :=
  if USE_EXODUS_BALANCE = false then (.nan, cachedQty)
  else if exodusAddrs.length = 0 then (.nan, cachedQty)
  else
    let total := exodusTotal lookup
    if total ≤ 0 then ((if cachedQty.isFinite = true then cachedQty else .nan), cachedQty)
    else (.fin total, .fin total)

/-- Source `attoToFIL`: strip leading zeros; an empty remainder is 0;
at most 18 digits become `Number('0.' + padded)`; otherwise the string
is sliced 18 places from the right and rejoined around a decimal
point. -/
def attoToFIL (attoStr : String) : JSNum :=
  let s := attoStr.data.dropWhile (· = '0')
  if s.length = 0 then .fin 0
  else if s.length ≤ 18 then
    jsNumber ⟨'0' :: '.' :: (List.replicate (18 - s.length) '0' ++ s)⟩
  else
    jsNumber ⟨s.take (s.length - 18) ++ '.' :: s.drop (s.length - 18)⟩

/-- Source constants `TP_PRICE` and `SL_PRICE`. -/
def TP_PRICE : JSNum := .fin (7 / 2)

/-- Source constant `SL_PRICE`. -/
def SL_PRICE : JSNum := .fin 2

/-- The `value` computation of `render`. -/
def renderValue (lastPrice : JSNum) (pos : Position) : JSNum :=
  if lastPrice.isFinite = true then .fin (pos.qty * lastPrice.val) else .nan

/-- The `pnlUSD` computation of `render`. -/
def renderPnlUSD (value : JSNum) (pos : Position) : JSNum :=
  if value.isFinite = true then .fin (value.val - pos.invested) else .nan

/-- The `pnlPct` computation of `render`: guarded by
`pos.invested > 0 && Number.isFinite(value)`. -/
def renderPnlPct (value : JSNum) (pos : Position) : JSNum :=
  if 0 < pos.invested ∧ value.isFinite = true then
    .fin ((renderPnlUSD value pos).val / pos.invested * 100)
  else .nan

/-- The `fromAvgPct` computation of `render`: guarded by a finite
positive average cost and a finite price. -/
def renderFromAvgPct (lastPrice : JSNum) (pos : Position) : JSNum :=
  if pos.avgCost.isFinite = true ∧ 0 < pos.avgCost.val ∧ lastPrice.isFinite = true then
    .fin ((lastPrice.val - pos.avgCost.val) / pos.avgCost.val * 100)
  else .nan

/-- The target-distance computation of `render` for one threshold:
`((threshold / lastPrice) - 1) * 100`, computed (as in the source)
only when both the threshold and the price are finite, and `none`
otherwise (the source renders `null` entries as absent). -/
def targetPct (threshold lastPrice : JSNum) : Option JSNum :=
  if threshold.isFinite = true ∧ lastPrice.isFinite = true then
    some (jsMul (jsSub (jsDiv threshold lastPrice) (.fin 1)) (.fin 100))
  else none

/-- The display filter shared by `fmt2`, `fmt6`, `fmtFIL` and
`fmtPct`: a finite number is rendered, anything else becomes the
placeholder dash (`none`). -/
def fmtNum (n : JSNum) : Option ℚ :=
  if n.isFinite = true then some n.val else none

/-- A whole sequence of `pushPrice` calls at capacity `maxPoints`,
starting from the empty buffer. -/
def appendSeq (maxPoints : ℕ) (l : List (ℤ × JSNum)) : List Sample :=
  l.foldl (fun b tp => pushPriceN maxPoints b tp.1 tp.2) []

lemma appendSeq_concat (N : ℕ) (l : List (ℤ × JSNum)) (x : ℤ × JSNum) :
    appendSeq N (l ++ [x]) = pushPriceN N (appendSeq N l) x.1 x.2 := by
  simp [appendSeq, List.foldl_append]

/-- C1: for every capacity `N` and every sequence of appended
samples, the buffer built by folding `pushPrice` over the sequence
has length at most `N` and consists of exactly the most recent
`min (length, N)` samples in insertion order (the oldest are dropped
from the front). -/
theorem pushPrice_bounded_fifo (N : ℕ) (l : List (ℤ × JSNum)) :
    (appendSeq N l).length ≤ N ∧
      appendSeq N l = (l.map fun tp => Sample.mk tp.1 tp.2).drop (l.length - N) := by
  induction l using List.reverseRecOn with
  | nil => simp [appendSeq]
  | append_singleton l x ih =>
      obtain ⟨ihlen, iheq⟩ := ih
      rw [appendSeq_concat]
      set ml := l.map fun tp => Sample.mk tp.1 tp.2 with hml
      have hmlen : ml.length = l.length := by simp [hml]
      rw [iheq]
      set s : Sample := ⟨x.1, x.2⟩ with hs
      have hgoal2 : (l ++ [x]).map (fun tp => Sample.mk tp.1 tp.2) = ml ++ [s] := by
        simp [hml, hs]
      rw [hgoal2]
      unfold pushPriceN
      have hdlen : (ml.drop (l.length - N)).length = ml.length - (l.length - N) := by
        simp
      by_cases hkN : l.length < N
      · have hnotrim : ¬ N < (ml.drop (l.length - N) ++ [s]).length := by
          simp only [List.length_append, hdlen, hmlen, List.length_singleton]
          omega
        rw [if_neg hnotrim]
        have h0 : l.length - N = 0 := by omega
        have h0' : (l ++ [x]).length - N = 0 := by simp; omega
        simp only [h0, h0', List.drop_zero]
        refine ⟨?_, trivial⟩
        simp only [List.length_append, hmlen, List.length_singleton]
        omega
      · -- the buffer is full: one element is evicted from the front
        push_neg at hkN
        have htrim : N < (ml.drop (l.length - N) ++ [s]).length := by
          simp only [List.length_append, hdlen, hmlen, List.length_singleton]
          omega
        rw [if_pos htrim]
        have hlen1 : (ml.drop (l.length - N) ++ [s]).length = N + 1 := by
          simp only [List.length_append, hdlen, hmlen, List.length_singleton]
          omega
        rw [hlen1]
        have hd1 : N + 1 - N = 1 := by omega
        rw [hd1]
        constructor
        · simp only [List.length_drop, hlen1]
          omega
        · rw [List.drop_append_eq_append_drop, List.drop_drop,
            List.drop_append_eq_append_drop]
          have e1 : l.length - N + 1 = (l ++ [x]).length - N := by
            simp only [List.length_append, List.length_singleton]
            omega
          have e2 : 1 - (ml.drop (l.length - N)).length = (l ++ [x]).length - N - ml.length := by
            rw [hdlen, hmlen]
            simp only [List.length_append, List.length_singleton]
            omega
          rw [e1, e2]


lemma refLoop_eq_find (cutoff : ℤ) (l : List Sample) :
    refLoop cutoff l = l.find? (fun s => decide (cutoff ≤ s.t)) := by
  induction l with
  | nil => rfl
  | cons x xs ih =>
      by_cases h : cutoff ≤ x.t
      · simp [refLoop, h]
      · simp [refLoop, h, ih]

/-- C2: the windowed percent change equals
`(last.price - ref.price) / ref.price * 100` where `ref` is the
earliest retained sample with timestamp at or after `now - ms`
(falling back to the oldest sample), and it is NaN exactly when the
buffer is empty, the reference price is zero, or an endpoint price is
non-finite; on the two-sample buffer `[(0,100),(1,110)]` with a
window covering both samples it is exactly 10. -/
theorem pctChange_matches_spec (buf : List Sample) (now ms : ℤ) :
    (pctChangeSinceMs buf now ms =
      match buf with
      | [] => JSNum.nan
      | x :: xs =>
          let ref := ((x :: xs).find? fun s => decide (now - ms ≤ s.t)).getD x
          let last := (x :: xs).getLast (List.cons_ne_nil x xs)
          if ref.p.isFinite = true ∧ last.p.isFinite = true ∧ ref.p ≠ JSNum.fin 0 then
            JSNum.fin ((last.p.val - ref.p.val) / ref.p.val * 100)
          else JSNum.nan) ∧
    pctChangeSinceMs [⟨0, .fin 100⟩, ⟨1, .fin 110⟩] 10 100 = .fin 10 := by
  constructor
  · cases buf with
    | nil => rfl
    | cons x xs =>
        simp only [pctChangeSinceMs, refLoop_eq_find]
        set ref := ((x :: xs).find? fun s => decide (now - ms ≤ s.t)).getD x with href
        set lst := (x :: xs).getLast (List.cons_ne_nil x xs) with hlst
        by_cases hA : ref.p.isFinite = true <;>
          by_cases hB : lst.p.isFinite = true <;>
            by_cases hC : ref.p = JSNum.fin 0 <;>
              simp [hA, hB, hC]
  · simp [pctChangeSinceMs, refLoop, JSNum.val, JSNum.isFinite]
    norm_num

/-- C8 counterexample: `pushPrice` on an empty buffer with a NaN
price is not a no-op, the NaN sample is appended. -/
theorem pushPrice_nan_not_noop :
    pushPrice [] 0 JSNum.nan = [⟨0, JSNum.nan⟩] ∧
      pushPrice [] 0 JSNum.nan ≠ [] := by
  constructor
  · simp [pushPrice, pushPriceN, BUF_MAX_POINTS]
  · simp [pushPrice, pushPriceN, BUF_MAX_POINTS]

lemma pushPrice_getLast (buf : List Sample) (t : ℤ) (p : JSNum) :
    (pushPrice buf t p).getLast? = some ⟨t, p⟩ := by
  unfold pushPrice pushPriceN
  by_cases h : BUF_MAX_POINTS < (buf ++ [(⟨t, p⟩ : Sample)]).length
  · rw [if_pos h]
    rw [List.drop_append_eq_append_drop]
    have h0 : (buf ++ [(⟨t, p⟩ : Sample)]).length - BUF_MAX_POINTS - buf.length = 0 := by
      simp only [List.length_append, List.length_singleton, BUF_MAX_POINTS]
      omega
    rw [h0, List.drop_zero]
    exact List.getLast?_concat _
  · rw [if_neg h]
    exact List.getLast?_concat _

/-- C8 amended: `pushPrice` itself performs no finiteness check and
appends even a non-finite price; the finiteness guard lives at each
call site (the WebSocket message handler and the REST poll), so a
message or poll round whose extracted price is non-finite leaves the
price state completely unchanged. -/
theorem nonfinite_price_dropped_at_call_sites :
    (∀ (buf : List Sample) (t : ℤ) (p : JSNum), p.isFinite = false →
        (pushPrice buf t p).getLast? = some ⟨t, p⟩) ∧
    (∀ (now : ℤ) (st : PriceState) (m : CoinbaseMsg),
        (jsNumber (m.price.getD "")).isFinite = false →
        coinbaseOnMessage now st m = st) ∧
    (∀ (now : ℤ) (st : PriceState) (r1 r2 r3 : JSNum),
        r1.isFinite = false → r2.isFinite = false → r3.isFinite = false →
        restPollStep now st r1 r2 r3 = st) := by
  refine ⟨fun buf t p _ => pushPrice_getLast buf t p, ?_, ?_⟩
  · intro now st m hpx
    unfold coinbaseOnMessage
    by_cases hg : m.type = "ticker" ∧ m.product_id = "FIL-USD" ∧ truthyStr m.price = true
    · rw [if_pos hg]
      simp [hpx]
    · rw [if_neg hg]
  · intro now st r1 r2 r3 h1 h2 h3
    unfold restPollStep
    simp [h1, h2, h3]

/-- C6 counterexample: the Coinbase message handler accepts a ticker
message whose price field is the string 0: the zero price passes the
finiteness-only guard, is stored as the current price and appended to
the buffer, although it is not positive. -/
theorem coinbase_accepts_zero_price :
    coinbaseOnMessage 5 ⟨.nan, []⟩ ⟨"ticker", "FIL-USD", some "0"⟩ =
      ⟨.fin 0, [⟨5, .fin 0⟩]⟩ ∧ ¬0 < (JSNum.fin 0).val := by
  constructor
  · simp [coinbaseOnMessage, truthyStr, jsNumber, parseDec, digitsToNat,
      JSNum.isFinite, pushPrice, pushPriceN, BUF_MAX_POINTS]
  · simp [JSNum.val]

/-- C6 amended: every price accepted by the Coinbase WebSocket
handler or by a REST polling round is finite before it is stored as
the current price and appended to the buffer (any other message or
round leaves the state unchanged); positivity, however, is not
checked. -/
theorem accepted_prices_are_finite :
    (∀ (now : ℤ) (st : PriceState) (m : CoinbaseMsg),
        coinbaseOnMessage now st m = st ∨
        ∃ v : ℚ, coinbaseOnMessage now st m =
          ⟨.fin v, pushPrice st.priceBuffer now (.fin v)⟩) ∧
    (∀ (now : ℤ) (st : PriceState) (r1 r2 r3 : JSNum),
        restPollStep now st r1 r2 r3 = st ∨
        ∃ v : ℚ, restPollStep now st r1 r2 r3 =
          ⟨.fin v, pushPrice st.priceBuffer now (.fin v)⟩) := by
  constructor
  · intro now st m
    unfold coinbaseOnMessage
    by_cases hg : m.type = "ticker" ∧ m.product_id = "FIL-USD" ∧ truthyStr m.price = true
    · rw [if_pos hg]
      cases hpx : jsNumber (m.price.getD "") with
      | fin v => right; exact ⟨v, by simp [hpx, JSNum.isFinite]⟩
      | nan => left; simp [hpx, JSNum.isFinite]
      | inf => left; simp [hpx, JSNum.isFinite]
      | ninf => left; simp [hpx, JSNum.isFinite]
    · rw [if_neg hg]; left; rfl
  · intro now st r1 r2 r3
    cases r1 <;> cases r2 <;> cases r3 <;>
      simp [restPollStep, JSNum.isFinite]

/-- C3: with alerts enabled, `maybeAlert` emits an event exactly when
a configured threshold triggers (stop-loss `price ≤ SL`, take-profit
`price ≥ TP`) and the cooldown has elapsed; at most one event is
emitted, stop-loss wins when both trigger, `lastAlertTs` becomes
`now` exactly when an event is emitted and is unchanged otherwise,
and nothing is ever emitted during the cooldown window. -/
theorem maybeAlert_spec (cfg : AlertCfg) (price : ℚ) (now lastAlertTs : ℤ)
    (hEn : cfg.enabled = true) :
    ((maybeAlert cfg price now lastAlertTs).1.isSome = true ↔
      (((cfg.sl.isFinite = true ∧ price ≤ cfg.sl.val) ∨
          (cfg.tp.isFinite = true ∧ cfg.tp.val ≤ price)) ∧
        cfg.cooldownMin * 60000 ≤ now - lastAlertTs)) ∧
    ((cfg.sl.isFinite = true ∧ price ≤ cfg.sl.val) →
      cfg.cooldownMin * 60000 ≤ now - lastAlertTs →
      maybeAlert cfg price now lastAlertTs = (some .stopLoss, now)) ∧
    (¬(cfg.sl.isFinite = true ∧ price ≤ cfg.sl.val) →
      (cfg.tp.isFinite = true ∧ cfg.tp.val ≤ price) →
      cfg.cooldownMin * 60000 ≤ now - lastAlertTs →
      maybeAlert cfg price now lastAlertTs = (some .takeProfit, now)) ∧
    (now - lastAlertTs < cfg.cooldownMin * 60000 →
      (maybeAlert cfg price now lastAlertTs).1 = none) ∧
    ((maybeAlert cfg price now lastAlertTs).1 = none →
      (maybeAlert cfg price now lastAlertTs).2 = lastAlertTs) ∧
    ((maybeAlert cfg price now lastAlertTs).1.isSome = true →
      (maybeAlert cfg price now lastAlertTs).2 = now) := by
  by_cases hSLf : cfg.sl.isFinite = true <;>
    by_cases hSLle : price ≤ cfg.sl.val <;>
      by_cases hTPf : cfg.tp.isFinite = true <;>
        by_cases hTPle : cfg.tp.val ≤ price <;>
          by_cases hCD : cfg.cooldownMin * 60000 ≤ now - lastAlertTs <;>
            simp [maybeAlert, hEn, hSLf, hSLle, hTPf, hTPle, hCD, not_le, not_lt]

/-- C3 witness: the spec example — stop-loss 2, cooldown 60 minutes,
never fired, price 1.5 — fires exactly one stop-loss event and sets
the last-fired time to now. -/
theorem maybeAlert_spec_witness :
    maybeAlert srcAlertCfg (3 / 2) 10000000000 0 = (some .stopLoss, 10000000000) := by
  have h := maybeAlert_spec srcAlertCfg (3 / 2) 10000000000 0 rfl
  refine h.2.1 ⟨rfl, ?_⟩ (by norm_num [srcAlertCfg])
  norm_num [srcAlertCfg, JSNum.val]

/-- C4: when the accumulated total of the successful per-address
balance lookups is not positive (in particular when every provider
fails), the refresher leaves the cache untouched and returns the
previous cached quantity (its NaN initial value included), never an
error value and never zero. -/
theorem exodus_refresh_stale_cache (lookup : String → JSNum) (cachedQty : JSNum)
    (h : exodusTotal lookup ≤ 0) :
    (fetchExodusQtyFIL lookup cachedQty).2 = cachedQty ∧
    (cachedQty.isFinite = true ∨ cachedQty = .nan →
      (fetchExodusQtyFIL lookup cachedQty).1 = cachedQty) := by
  have haddr : ¬exodusAddrs.length = 0 := by decide
  unfold fetchExodusQtyFIL
  rw [if_neg (by simp [USE_EXODUS_BALANCE]), if_neg haddr]
  simp only [if_pos h]
  refine ⟨trivial, ?_⟩
  rintro (hc | hc)
  · simp [hc]
  · simp [hc, JSNum.isFinite]

/-- C4 witness: all providers fail (every lookup is NaN) while the
cache holds 42 from a prior success; the refresh returns 42 and the
cache still holds 42. -/
theorem exodus_refresh_stale_cache_witness :
    exodusTotal (fun _ => JSNum.nan) ≤ 0 ∧
      (fetchExodusQtyFIL (fun _ => JSNum.nan) (JSNum.fin 42)).1 = JSNum.fin 42 ∧
      (fetchExodusQtyFIL (fun _ => JSNum.nan) (JSNum.fin 42)).2 = JSNum.fin 42 := by
  have h : exodusTotal (fun _ => JSNum.nan) ≤ 0 := by
    have h0 : exodusTotal (fun _ => JSNum.nan) = 0 := by
      simp [exodusTotal, JSNum.isFinite]
    rw [h0]
  have hmain := exodus_refresh_stale_cache (fun _ => JSNum.nan) (JSNum.fin 42) h
  exact ⟨h, hmain.2 (Or.inl rfl), hmain.1⟩

/-- C9: when a cost-basis entry carries both a valid positive finite
`qty` and a `usd` field (any value) together with a valid positive
finite price, normalization uses the `qty` field and recomputes the
invested amount as `qty * price`; the supplied `usd` value does not
appear in the result. -/
theorem normalizeLots_qty_precedence (l : RawLot) (q u : JSNum) (rest : List RawLot)
    (hq : l.qty = some q) (_hu : l.usd = some u)
    (hpf : l.price.isFinite = true) (hpp : 0 < l.price.val)
    (hqf : q.isFinite = true) (hqp : 0 < q.val) :
    normalizeLots (l :: rest) =
      ⟨q.val, q.val * l.price.val, l.price.val, tsOrNull l.ts⟩ :: normalizeLots rest := by
  have h1 : ¬(l.price.isFinite = false ∨ l.price.val ≤ 0) := by
    simp [hpf, not_le]
    exact hpp
  have h2 : ¬(q.isFinite = false ∨ q.val ≤ 0) := by
    simp [hqf, not_le]
    exact hqp
  simp [normalizeLots, normalizeLot, hq, h1, h2]

/-- C9 witness: the entry with price 4, qty 10 and usd 999 normalizes
to qty 10, invested 40 (the supplied usd 999 is ignored). -/
theorem normalizeLots_qty_precedence_witness :
    normalizeLots [⟨.fin 4, some (.fin 10), some (.fin 999), none⟩] =
      [⟨10, 40, 4, none⟩] := by
  rw [normalizeLots_qty_precedence ⟨.fin 4, some (.fin 10), some (.fin 999), none⟩
    (.fin 10) (.fin 999) [] rfl rfl rfl (by norm_num [JSNum.val]) rfl
    (by norm_num [JSNum.val])]
  norm_num [JSNum.val, normalizeLots, tsOrNull]

/-- C10: on any input string made only of zero digits (the empty
string included) the atto-to-FIL conversion returns exactly 0:
leading zeros are stripped and the empty remainder maps to zero. -/
theorem attoToFIL_all_zeros (s : String) (h : ∀ c ∈ s.data, c = '0') :
    attoToFIL s = .fin 0 := by
  have hz : s.data.dropWhile (fun c => c = '0') = [] := by
    rw [List.dropWhile_eq_nil_iff]
    intro x hx
    simp [h x hx]
  simp only [attoToFIL, hz, List.length_nil]
  rfl

/-- C10 witness: the strings 0, 000 and the empty string all convert
to exactly 0. -/
theorem attoToFIL_all_zeros_witness :
    attoToFIL "0" = .fin 0 ∧ attoToFIL "000" = .fin 0 ∧ attoToFIL "" = .fin 0 :=
  ⟨attoToFIL_all_zeros "0" (by decide), attoToFIL_all_zeros "000" (by decide),
    attoToFIL_all_zeros "" (by decide)⟩

lemma foldl_digits_acc (b : List Char) (acc : ℕ) :
    b.foldl (fun a c => 10 * a + (c.toNat - 48)) acc =
      acc * 10 ^ b.length + b.foldl (fun a c => 10 * a + (c.toNat - 48)) 0 := by
  induction b generalizing acc with
  | nil => simp
  | cons c b ih =>
      simp only [List.foldl_cons, List.length_cons]
      rw [ih (10 * acc + (c.toNat - 48)), ih (10 * 0 + (c.toNat - 48))]
      ring

lemma digitsToNat_append (a b : List Char) :
    digitsToNat (a ++ b) = digitsToNat a * 10 ^ b.length + digitsToNat b := by
  unfold digitsToNat
  rw [List.foldl_append, foldl_digits_acc]

lemma digitsToNat_all_zero (l : List Char) (h : ∀ c ∈ l, c = '0') :
    digitsToNat l = 0 := by
  induction l with
  | nil => rfl
  | cons c t ih =>
      have hc := h c (by simp)
      have ht := ih fun x hx => h x (by simp [hx])
      subst hc
      unfold digitsToNat at ht ⊢
      simp only [List.foldl_cons]
      have h0 : 10 * 0 + ('0'.toNat - 48) = 0 := by decide
      rw [h0, ht]

lemma digitsToNat_dropWhile_zero (l : List Char) :
    digitsToNat (l.dropWhile (· = '0')) = digitsToNat l := by
  conv_rhs => rw [← List.takeWhile_append_dropWhile (p := (· = '0')) (l := l)]
  rw [digitsToNat_append]
  have hz : digitsToNat (l.takeWhile (· = '0')) = 0 := by
    refine digitsToNat_all_zero _ fun c hc => ?_
    have := List.mem_takeWhile_imp hc
    exact of_decide_eq_true this
  rw [hz]
  ring

lemma takeWhile_dropWhile_append_not (p : Char → Bool) (I F : List Char) (x : Char)
    (hI : ∀ c ∈ I, p c = true) (hx : p x = false) :
    (I ++ x :: F).takeWhile p = I ∧ (I ++ x :: F).dropWhile p = x :: F := by
  induction I with
  | nil => simp [List.takeWhile_cons, List.dropWhile_cons, hx]
  | cons c I ih =>
      have hc := hI c (by simp)
      have ih' := ih fun d hd => hI d (by simp [hd])
      simp [List.takeWhile_cons, List.dropWhile_cons, hc, ih'.1, ih'.2]

lemma parseDec_int_frac (I F : List Char) (hI : ∀ c ∈ I, c.isDigit = true)
    (hF : ∀ c ∈ F, c.isDigit = true) (hne : ¬(I = [] ∧ F = [])) :
    parseDec (I ++ '.' :: F) =
      .fin ((digitsToNat I : ℚ) + (digitsToNat F : ℚ) / 10 ^ F.length) := by
  have hdot : Char.isDigit '.' = false := by decide
  obtain ⟨ht, hd⟩ := takeWhile_dropWhile_append_not Char.isDigit I F '.' hI hdot
  unfold parseDec
  rw [ht, hd]
  have hall : F.all Char.isDigit = true := List.all_eq_true.mpr hF
  show (if ('.' : Char) = '.' ∧ F.all Char.isDigit = true ∧ ¬(I = [] ∧ F = []) then
      JSNum.fin ((digitsToNat I : ℚ) + (digitsToNat F : ℚ) / 10 ^ F.length)
    else JSNum.nan) = JSNum.fin ((digitsToNat I : ℚ) + (digitsToNat F : ℚ) / 10 ^ F.length)
  rw [if_pos ⟨rfl, hall, hne⟩]

lemma jsNumber_cons (c : Char) (r : List Char) :
    jsNumber ⟨c :: r⟩ = if c = '-' then jsNeg (parseDec r) else parseDec (c :: r) := rfl

lemma attoToFIL_digits (s : String) (h : ∀ c ∈ s.data, c.isDigit = true) :
    attoToFIL s = .fin ((digitsToNat s.data : ℚ) / 10 ^ 18) := by
  have hdd : digitsToNat (s.data.dropWhile (· = '0')) = digitsToNat s.data :=
    digitsToNat_dropWhile_zero s.data
  have hdig : ∀ c ∈ s.data.dropWhile (· = '0'), c.isDigit = true := fun c hc =>
    h c ((List.dropWhile_sublist _).mem hc)
  unfold attoToFIL
  set d := s.data.dropWhile (· = '0') with hdef
  by_cases h0 : d.length = 0
  · rw [if_pos h0]
    rw [List.length_eq_zero.mp h0] at hdd
    rw [← hdd]
    norm_num [digitsToNat]
  · rw [if_neg h0]
    by_cases h18 : d.length ≤ 18
    · rw [if_pos h18]
      have hpadF : ∀ c ∈ List.replicate (18 - d.length) '0' ++ d, c.isDigit = true := by
        intro c hc
        rcases List.mem_append.mp hc with hc | hc
        · rw [List.eq_of_mem_replicate hc]; decide
        · exact hdig c hc
      rw [jsNumber_cons, if_neg (by decide : ¬('0' : Char) = '-')]
      have hpd := parseDec_int_frac ['0'] (List.replicate (18 - d.length) '0' ++ d)
        (by intro c hc; simp at hc; rw [hc]; decide) hpadF (by simp)
      have hcons : ('0' : Char) :: '.' :: (List.replicate (18 - d.length) '0' ++ d) =
          ['0'] ++ '.' :: (List.replicate (18 - d.length) '0' ++ d) := rfl
      rw [hcons, hpd]
      have hlen : (List.replicate (18 - d.length) '0' ++ d).length = 18 := by
        simp only [List.length_append, List.length_replicate]
        omega
      have hz : digitsToNat (List.replicate (18 - d.length) '0' ++ d) = digitsToNat d := by
        rw [digitsToNat_append]
        have : digitsToNat (List.replicate (18 - d.length) '0') = 0 :=
          digitsToNat_all_zero _ fun c hc => List.eq_of_mem_replicate hc
        rw [this]
        ring
      rw [hlen, hz, hdd]
      have h00 : digitsToNat ['0'] = 0 := by decide
      rw [h00]
      norm_num
    · rw [if_neg h18]
      push_neg at h18
      have hIlen : (d.take (d.length - 18)).length = d.length - 18 := by
        rw [List.length_take]
        omega
      have hFlen : (d.drop (d.length - 18)).length = 18 := by
        rw [List.length_drop]
        omega
      cases hI0 : d.take (d.length - 18) with
      | nil =>
          exfalso
          rw [hI0] at hIlen
          simp at hIlen
          omega
      | cons c0 I2 =>
          have hc0dig : c0.isDigit = true := by
            have : c0 ∈ d.take (d.length - 18) := by rw [hI0]; simp
            exact hdig c0 (List.take_subset _ _ this)
          have hcm : ¬c0 = '-' := by
            intro he
            rw [he] at hc0dig
            exact absurd hc0dig (by decide)
          rw [List.cons_append, jsNumber_cons, if_neg hcm, ← List.cons_append, ← hI0]
          rw [parseDec_int_frac _ _ (fun c hc => hdig c (List.take_subset _ _ hc))
            (fun c hc => hdig c (List.drop_subset _ _ hc))
            (by rw [hI0]; simp)]
          have hsplit : digitsToNat d =
              digitsToNat (d.take (d.length - 18)) * 10 ^ 18 +
                digitsToNat (d.drop (d.length - 18)) := by
            conv_lhs => rw [← List.take_append_drop (d.length - 18) d]
            rw [digitsToNat_append, hFlen]
          rw [hFlen, ← hdd, hsplit]
          push_cast
          have hne : ((10 : ℚ) ^ 18) ≠ 0 := by norm_num
          field_simp
          norm_num

/-- C7: the atto-to-FIL conversion is exact on every decimal digit
string: it equals the represented integer divided by ten to the
eighteenth, with the integer part obtained by string slicing rather
than floating-point arithmetic; in particular the string
1500000000000000000 converts to exactly 1.5 and the string 5 to
exactly 0.000000000000000005. -/
theorem attoToFIL_exact :
    (∀ s : String, (∀ c ∈ s.data, c.isDigit = true) →
      attoToFIL s = .fin ((digitsToNat s.data : ℚ) / 10 ^ 18)) ∧
    attoToFIL "1500000000000000000" = .fin (3 / 2) ∧
    attoToFIL "5" = .fin (5 / 10 ^ 18) := by
  refine ⟨attoToFIL_digits, ?_, ?_⟩
  · rw [attoToFIL_digits "1500000000000000000" (by decide)]
    have hv : digitsToNat "1500000000000000000".data = 1500000000000000000 := by decide
    rw [hv]
    norm_num
  · rw [attoToFIL_digits "5" (by decide)]
    have hv : digitsToNat "5".data = 5 := by decide
    rw [hv]
    norm_num

/-- C7 witness: the general exactness statement applied at the
concrete digit string 42. -/
theorem attoToFIL_exact_witness : attoToFIL "42" = .fin (42 / 10 ^ 18) := by
  rw [attoToFIL_exact.1 "42" (by decide)]
  have hv : digitsToNat "42".data = 42 := by decide
  rw [hv]
  norm_num

/-- C5 counterexample: with a finite zero current price the
take-profit target-distance division is not guarded against the zero
denominator: it evaluates to Infinity, not to an undefined value. -/
theorem targetPct_zero_price_infinite :
    targetPct TP_PRICE (.fin 0) = some JSNum.inf ∧ JSNum.inf ≠ JSNum.nan := by
  constructor
  · have hdiv : jsDiv TP_PRICE (.fin 0) = JSNum.inf := by
      simp only [TP_PRICE, jsDiv]
      norm_num
    have hsub : jsSub JSNum.inf (.fin 1) = JSNum.inf := rfl
    have hmul : jsMul JSNum.inf (.fin 100) = JSNum.inf := by
      simp only [jsMul]
      norm_num
    simp only [targetPct, TP_PRICE, JSNum.isFinite, true_and, if_pos]
    rw [← TP_PRICE, hdiv, hsub, hmul]
  · simp

/-- C5 amended: the average-cost, pnl-percent and from-average
divisions are guarded and yield NaN (never an infinity) on a zero or
unavailable denominator; the target-distance division is guarded only
against a non-finite price, so a zero current price yields Infinity
there — but the display formatter maps every non-finite value to the
placeholder dash, so no Infinity or NaN reaches the rendered
output. -/
theorem render_divisions_guarded :
    (∀ (lots0 : List RawLot) (cq : JSNum), ¬0 < (computePositionLots lots0 cq).qty →
      (computePositionLots lots0 cq).avgCost = .nan) ∧
    (∀ (lots0 : List RawLot) (cq : JSNum),
      (computePositionLots lots0 cq).avgCost ≠ .inf ∧
        (computePositionLots lots0 cq).avgCost ≠ .ninf) ∧
    (∀ (value : JSNum) (pos : Position), pos.invested ≤ 0 ∨ value.isFinite = false →
      renderPnlPct value pos = .nan) ∧
    (∀ (value : JSNum) (pos : Position),
      renderPnlPct value pos ≠ .inf ∧ renderPnlPct value pos ≠ .ninf) ∧
    (∀ (lp : JSNum) (pos : Position),
      pos.avgCost.isFinite = false ∨ pos.avgCost.val ≤ 0 ∨ lp.isFinite = false →
      renderFromAvgPct lp pos = .nan) ∧
    (∀ (lp : JSNum) (pos : Position),
      renderFromAvgPct lp pos ≠ .inf ∧ renderFromAvgPct lp pos ≠ .ninf) ∧
    (∀ n : JSNum, n.isFinite = false → fmtNum n = none) := by
  refine ⟨?_, ?_, ?_, ?_, ?_, ?_, ?_⟩
  · intro lots0 cq h
    simp only [computePositionLots] at h ⊢
    rw [if_neg h]
  · intro lots0 cq
    simp only [computePositionLots]
    split_ifs <;> simp
  · intro value pos h
    have hc : ¬(0 < pos.invested ∧ value.isFinite = true) := by
      rcases h with h | h
      · exact fun hc => absurd hc.1 (not_lt.mpr h)
      · exact fun hc => by rw [h] at hc; exact absurd hc.2 (by simp)
    simp only [renderPnlPct]
    rw [if_neg hc]
  · intro value pos
    simp only [renderPnlPct]
    split_ifs <;> simp
  · intro lp pos h
    have hc : ¬(pos.avgCost.isFinite = true ∧ 0 < pos.avgCost.val ∧ lp.isFinite = true) := by
      rcases h with h | h | h
      · exact fun hc => by rw [h] at hc; exact absurd hc.1 (by simp)
      · exact fun hc => absurd hc.2.1 (not_lt.mpr h)
      · exact fun hc => by rw [h] at hc; exact absurd hc.2.2 (by simp)
    simp only [renderFromAvgPct]
    rw [if_neg hc]
  · intro lp pos
    simp only [renderFromAvgPct]
    split_ifs <;> simp
  · intro n h
    simp [fmtNum, h]

/-- C5 witness: the guards applied at concrete inputs — an empty lot
list gives a NaN average cost, zero invested gives a NaN pnl percent,
a NaN average cost gives a NaN from-average percent, and the
formatter drops Infinity. -/
theorem render_divisions_guarded_witness :
    (computePositionLots [] JSNum.nan).avgCost = .nan ∧
      renderPnlPct (.fin 1) ⟨0, 0, 0, JSNum.nan⟩ = .nan ∧
      renderFromAvgPct (.fin 1) ⟨0, 0, 0, JSNum.nan⟩ = .nan ∧
      fmtNum JSNum.inf = none := by
  refine ⟨render_divisions_guarded.1 [] JSNum.nan ?_,
    render_divisions_guarded.2.2.1 (.fin 1) ⟨0, 0, 0, JSNum.nan⟩ (Or.inl le_rfl),
    render_divisions_guarded.2.2.2.2.1 (.fin 1) ⟨0, 0, 0, JSNum.nan⟩ (Or.inl rfl),
    render_divisions_guarded.2.2.2.2.2.2 JSNum.inf rfl⟩
  simp [computePositionLots, normalizeLots, JSNum.isFinite]

/-- C8 witness: a ticker message whose price text parses to NaN
leaves a concrete state unchanged, and `pushPrice` appends even an
infinite price. -/
theorem nonfinite_price_dropped_witness :
    coinbaseOnMessage 0 ⟨.fin 1, []⟩ ⟨"ticker", "FIL-USD", some "x"⟩ = ⟨.fin 1, []⟩ ∧
      (pushPrice [] 3 JSNum.inf).getLast? = some ⟨3, JSNum.inf⟩ := by
  refine ⟨nonfinite_price_dropped_at_call_sites.2.1 0 ⟨.fin 1, []⟩
    ⟨"ticker", "FIL-USD", some "x"⟩ ?_,
    nonfinite_price_dropped_at_call_sites.1 [] 3 JSNum.inf rfl⟩
  decide
